import Mathlib

/- Verification development for src/app/main.py of the zib2-podcast repository.
   The episode sync cycle (download_all, get_episode_urls) and the feed
   handler (podcast) are shallowly embedded: Python strings become List Char
   or String, the library directory becomes a list of paths / directory
   entries, the mutable module dict YTDL_OPTS lives in a small explicit heap,
   and network results (requests.get) are parameters.  Raised exceptions are
   modelled with Except / an err field; an exception caught by a
   try/except block is modelled by the branch the except block produces. -/

set_option maxHeartbeats 1000000

/-- Model of Python character-class membership for the regex \s
    (ASCII whitespace characters). -/
def isPySpace (c : Char) : Bool :=
  c = ' ' || c = '\t' || c = '\n' || c = '\r' || c = '\x0b' || c = '\x0c'

/-- Strip a leading literal: some rest when the first list is an initial
    segment of the second, none otherwise. -/
def dropStart : List Char → List Char → Option (List Char)
  | [], s => some s
  | _ :: _, [] => none
  | p :: ps, c :: cs => if c = p then dropStart ps cs else none

/-- Consume the regex \s* : drop leading whitespace characters. -/
def dropSpaces : List Char → List Char
  | [] => []
  | c :: cs => if isPySpace c then dropSpaces cs else c :: cs

/-- Model of Python str.split(sep) for a one-character separator, as used by
    name.split("-") and the date string split in main.py. -/
def splitOnChar (sep : Char) : List Char → List (List Char)
  | [] => [[]]
  | c :: cs =>
    match splitOnChar sep cs with
    | [] => [[c]]
    | seg :: segs => if c = sep then [] :: seg :: segs else (c :: seg) :: segs

/-- Model of name.replace(".m4a", "") from the staleness check of main.py:
    remove every (left-to-right, non-overlapping) occurrence of ".m4a". -/
def removeM4a : List Char → List Char
  | [] => []
  | '.' :: 'm' :: '4' :: 'a' :: rest => removeM4a rest
  | c :: cs => c :: removeM4a cs

/-- Model of date_enc.replace("_", " ") (single-character pattern). -/
def underscoreToSpace (l : List Char) : List Char :=
  l.map (fun c => if c = '_' then ' ' else c)

/-- Model of date_match.group("date").replace(" ", "_") (single-character
    pattern) from download_all. -/
def spaceToUnderscore (l : List Char) : List Char :=
  l.map (fun c => if c = ' ' then '_' else c)

/-- String version of spaceToUnderscore: the date_encoded value of
    download_all. -/
def encodeSpaces (s : String) : String :=
  String.mk (spaceToUnderscore s.data)

/-- Model of Python string comparison (lexicographic on code points), used by
    the sorted(..., key=lambda x: x.name) calls of the podcast handler. -/
def lexLt : List Char → List Char → Bool
  | _, [] => false
  | [], _ :: _ => true
  | x :: xs, y :: ys =>
    if x.toNat < y.toNat then true
    else if y.toNat < x.toNat then false
    else lexLt xs ys

/-- Python < on the name strings compared in the podcast handler. -/
def strLt (a b : String) : Bool := lexLt a.data b.data

/-- Model of Python name.endswith(".m4a"). -/
def endsWithM4a (l : List Char) : Bool :=
  decide (l.drop (l.length - 4) = ['.', 'm', '4', 'a'])

/-- Model of Python name[:-4] on a name that is tested separately for the
    ".m4a" suffix. -/
def dropLast4 (l : List Char) : List Char :=
  l.take (l.length - 4)

/-- Numeric value of a digit string, as produced by int() inside strptime. -/
def digitsVal (l : List Char) : Nat :=
  l.foldl (fun n c => n * 10 + (c.toNat - 48)) 0

/-- All characters are ASCII decimal digits. -/
def allDigits (l : List Char) : Bool := l.all Char.isDigit

/-- Gregorian leap-year rule, as validated by datetime.date. -/
def isLeap (y : Nat) : Bool :=
  if y % 4 = 0 ∧ (y % 100 ≠ 0 ∨ y % 400 = 0) then true else false

/-- Number of days of a month, as validated by datetime.date. -/
def daysInMonth (m y : Nat) : Nat :=
  if m = 2 then (if isLeap y then 29 else 28)
  else if m = 4 ∨ m = 6 ∨ m = 9 ∨ m = 11 then 30 else 31

/-- Calendar date, the value datetime.strptime(s, "%d.%m.%Y").date()
    produces. -/
structure Date where
  day : Nat
  month : Nat
  year : Nat
deriving DecidableEq, Repr

/-- Day number of a date (days-from-civil algorithm, valid for year ≥ 1);
    differences of this function model (date1 - date2).days of datetime. -/
def Date.toDays (dt : Date) : Nat :=
  let y := if dt.month ≤ 2 then dt.year - 1 else dt.year
  let era := y / 400
  let yoe := y % 400
  let mp := (dt.month + 9) % 12
  let doy := (153 * mp + 2) / 5 + dt.day - 1
  let doe := yoe * 365 + yoe / 4 - yoe / 100 + doy
  era * 146097 + doe

/-- Model of datetime.strptime(s, "%d.%m.%Y").date(): day and month of one
    or two digits, a four-digit year, dots in between, nothing left over,
    and the triple must form a valid calendar date (year ≥ MINYEAR = 1). -/
def parseDMY (cs : List Char) : Option Date :=
  match splitOnChar '.' cs with
  | [dcs, mcs, ycs] =>
    if allDigits dcs = true ∧ 1 ≤ dcs.length ∧ dcs.length ≤ 2 ∧
       allDigits mcs = true ∧ 1 ≤ mcs.length ∧ mcs.length ≤ 2 ∧
       allDigits ycs = true ∧ ycs.length = 4 then
      let d := digitsVal dcs
      let m := digitsVal mcs
      let y := digitsVal ycs
      if 1 ≤ y ∧ 1 ≤ m ∧ m ≤ 12 ∧ 1 ≤ d ∧ d ≤ daysInMonth m y then
        some (Date.mk d m y)
      else none
    else none
  | _ => none

/-- Match of the regex segments_complete(&quot;)?\s*:\s*false anchored at the
    start of the list (the optional &quot; group needs no backtracking: if it
    is present the variant without it cannot match either, since & is neither
    whitespace nor a colon). -/
def uncompleteAt (s : List Char) : Bool :=
  match dropStart ("segments_complete".data) s with
  | none => false
  | some r0 =>
    let r1 := match dropStart ("&quot;".data) r0 with
      | some r => r
      | none => r0
    match dropSpaces r1 with
    | ':' :: r2 =>
      match dropStart ("false".data) (dropSpaces r2) with
      | some _ => true
      | none => false
    | _ => false

/-- Model of re.search(uncomplete_regex, text): the pattern matches at some
    position of the text. -/
def searchUncomplete : List Char → Bool
  | [] => false
  | c :: cs => uncompleteAt (c :: cs) || searchUncomplete cs

/-- Character class [\d\.] of the date capture group. -/
def isDateChar (c : Char) : Bool := c.isDigit || c = '.'

/-- Model of re.search applied to the date_regex of download_all: find the
    leftmost position where the literal title marker is followed by a
    non-empty maximal run of [\d\.] characters, and return that run. -/
def searchTitleDate : List Char → Option String
  | [] => none
  | c :: cs =>
    match dropStart ("<title>ZIB 2 vom ".data) (c :: cs) with
    | some r =>
      match r.takeWhile isDateChar with
      | [] => searchTitleDate cs
      | d :: ds => some (String.mk (d :: ds))
    | none => searchTitleDate cs

/-- The f-string filename_template of download_all:
    %(id)s-{date_encoded}.%(ext)s for a given date_encoded. -/
def mkTemplate (date_encoded : String) : String :=
  "%(id)s-" ++ date_encoded ++ ".%(ext)s"

/-- Model of Python percent-formatting with a mapping, for the two keys the
    program uses: scan left to right, substitute %(id)s and %(ext)s (the
    substituted text is not rescanned); only the escapes occurring in this
    program are modelled, other characters pass through. -/
def pctFormat (id ext : String) : List Char → List Char
  | [] => []
  | c :: cs =>
    if c = '%' then
      match cs with
      | '(' :: 'i' :: 'd' :: ')' :: 's' :: rest => id.data ++ pctFormat id ext rest
      | '(' :: 'e' :: 'x' :: 't' :: ')' :: 's' :: rest => ext.data ++ pctFormat id ext rest
      | cs2 => c :: pctFormat id ext cs2
    else c :: pctFormat id ext cs

/-- The string filename_template % \x7b"id": id, "ext": "m4a"\x7d computed at
    the acquisition gate of download_all. -/
def gateFilename (tmpl id ext : String) : String :=
  String.mk (pctFormat id ext tmpl.data)

/-- Model of os.path.join("app", "static", fname). -/
def staticPath (fname : String) : String :=
  "app/static/" ++ fname

/-- Python dict assignment d[k] = v: update in place when the key exists
    (keeping its position), append otherwise. -/
def dictSet {α : Type} (d : List (String × α)) (k : String) (v : α) :
    List (String × α) :=
  if k ∈ d.map Prod.fst then d.map (fun p => if p.1 = k then (k, v) else p)
  else d ++ [(k, v)]

/-- Python dict lookup d[k]. -/
def dictGet {α : Type} (d : List (String × α)) (k : String) : Option α :=
  (d.find? (fun p => p.1 = k)).map Prod.snd

/-- Model of get_episode_urls of main.py.  The regex matches of the listing
    page are passed in as the list of (group("id"), full match) pairs that
    re.finditer produced, in page order; the dict comprehension of the source
    builds a dict keyed by id from them. -/
def get_episode_urls (ms : List (String × String)) : List (String × String) :=
  ms.foldl (fun d m => dictSet d m.1 m.2) []

/-- Values of the YTDL_OPTS dict of main.py. -/
inductive OptVal where
  | str (s : String)
  | num (n : Nat)
  | bool (b : Bool)
  | dict (entries : List (String × OptVal))
  | list (elems : List OptVal)

/-- The module-level YTDL_OPTS dict of main.py. -/
def YTDL_OPTS : List (String × OptVal) :=
  [("outtmpl", OptVal.str "%(id)s.%(ext)s"),
   ("paths", OptVal.dict [("home", OptVal.str "app/static"), ("temp", OptVal.str "/tmp")]),
   ("overwrites", OptVal.bool false),
   ("concurrent_fragment_downloads", OptVal.num 5),
   ("postprocessors", OptVal.list
     [OptVal.dict [("key", OptVal.str "FFmpegConcat"),
                   ("only_multi_video", OptVal.bool false),
                   ("when", OptVal.str "playlist")],
      OptVal.dict [("key", OptVal.str "FFmpegExtractAudio"),
                   ("preferredcodec", OptVal.str "m4a"),
                   ("preferredquality", OptVal.num 0),
                   ("nopostoverwrites", OptVal.bool false)]])]

/-- Heap of Python dict objects; address 0 holds the module-level YTDL_OPTS
    object, so that mutating a dict in place is distinguishable from
    mutating a copy. -/
structure Heap where
  dicts : List (List (String × OptVal))

/-- Model of YTDL_OPTS.copy(): a fresh dict object with the same entries
    (the copy is shallow, which is faithful here because the only key the
    program assigns on the copy, "outtmpl", holds a string). -/
def dictCopy (d : List (String × OptVal)) : List (String × OptVal) := d

/-- Model of ytdl_opts[k] = v on the dict object at address a. -/
def heapWrite (h : Heap) (a : Nat) (k : String) (v : OptVal) : Heap :=
  Heap.mk (h.dicts.set a (dictSet ((h.dicts.get? a).getD []) k v))

/-- Observable per-candidate outcomes of one pass of the download_all loop. -/
inductive Event where
  | skippedUncomplete (id : String)
  | skippedNoDate (id : String)
  | skippedExisting (id : String)
  | downloaded (id url : String)
deriving DecidableEq, Repr

/-- Result of one sync cycle: final library paths, final dict heap, the
    per-candidate events in loop order, and the exception (if any) that
    escaped download_all. -/
structure CycleResult where
  fs : List String
  heap : Heap
  events : List Event
  err : Option String

/-- Modelled from the spec: the Media Acquirer (YoutubeDL.download of yt-dlp,
    an external collaborator outside src/) writes exactly one file at the
    path given by the output template instantiated with the episode id and
    the m4a extension (the FFmpegExtractAudio postprocessor), under the
    configured home directory app/static. -/
def acquirerWrite (fs : List String) (target : String) : List String :=
  fs ++ [target]

/-- The per-candidate loop of download_all of main.py, over the (id, url)
    items of the candidate dict.  probe models requests.get(url).text
    (Except.error being a raised transport exception, which the source does
    not catch); fs models the set of existing paths under app/static; the
    heap holds the YTDL_OPTS dict object at address 0. -/
def runCycle (probe : String → Except String String) :
    List (String × String) → List String → Heap → CycleResult
  | [], fs, h => CycleResult.mk fs h [] none
  | (id, url) :: rest, fs, h =>
    match probe url with
    | Except.error e => CycleResult.mk fs h [] (some e)
    | Except.ok text =>
      if searchUncomplete text.data then
        let r := runCycle probe rest fs h
        CycleResult.mk r.fs r.heap (Event.skippedUncomplete id :: r.events) r.err
      else
        match searchTitleDate text.data with
        | none =>
          let r := runCycle probe rest fs h
          CycleResult.mk r.fs r.heap (Event.skippedNoDate id :: r.events) r.err
        | some date =>
          let date_encoded := encodeSpaces date
          let filename_template := mkTemplate date_encoded
          let target := staticPath (gateFilename filename_template id "m4a")
          if target ∈ fs then
            let r := runCycle probe rest fs h
            CycleResult.mk r.fs r.heap (Event.skippedExisting id :: r.events) r.err
          else
            let copied := dictCopy ((h.dicts.get? 0).getD [])
            let a := h.dicts.length
            let h1 := Heap.mk (h.dicts ++ [copied])
            let h2 := heapWrite h1 a "outtmpl" (OptVal.str filename_template)
            let r := runCycle probe rest (acquirerWrite fs target) h2
            CycleResult.mk r.fs r.heap (Event.downloaded id url :: r.events) r.err

/-- Entry point download_all of main.py: build the candidate dict from the
    listing-page matches, then run the loop. -/
def download_all (probe : String → Except String String)
    (ms : List (String × String)) (fs : List String) (h : Heap) : CycleResult :=
  runCycle probe (get_episode_urls ms) fs h

/-- The expected library path of a candidate, as download_all computes it
    from the probed detail page: none when probing raises, the page carries
    the uncomplete marker, or no date is found. -/
def candPath (probe : String → Except String String) (id url : String) : Option String :=
  match probe url with
  | Except.error _ => none
  | Except.ok text =>
    if searchUncomplete text.data then none
    else
      match searchTitleDate text.data with
      | none => none
      | some date => some (staticPath (gateFilename (mkTemplate (encodeSpaces date)) id "m4a"))

/-- Repeated scheduled invocations of download_all (one matches list per
    tick), threading the library and the dict heap. -/
def syncLoop (probe : String → Except String String) :
    List (List (String × String)) → List String → Heap → List String × Heap
  | [], fs, h => (fs, h)
  | ms :: more, fs, h =>
    let r := download_all probe ms fs h
    syncLoop probe more r.fs r.heap

/-- One os.scandir entry of the library directory: its name and the st_size
    of its stat. -/
structure DirEntry where
  name : String
  size : Nat
deriving DecidableEq, Repr

/-- Stable placement test of the ascending sorted(..., key=lambda x: x.name)
    call: a may sit before b when a.name ≤ b.name. -/
def entryLeAsc (a b : DirEntry) : Bool := ! strLt b.name a.name

/-- Stable placement test of dirlist.sort(reverse=True, key=lambda x: x.name):
    a may sit before b when a.name ≥ b.name. -/
def entryLeDesc (a b : DirEntry) : Bool := ! strLt a.name b.name

/-- Insert into a sorted list, before the first element the placement test
    allows; with the tests above this reproduces Python's stable sort. -/
def insertSorted {α : Type} (le : α → α → Bool) (a : α) : List α → List α
  | [] => [a]
  | b :: bs => if le a b then a :: b :: bs else b :: insertSorted le a bs

/-- Insertion sort with a boolean placement test. -/
def sortBy {α : Type} (le : α → α → Bool) (l : List α) : List α :=
  l.foldr (insertSorted le) []

/-- The dirlist value of the podcast handler: filter the scandir entries to
    names ending in ".m4a", sort ascending by name, then sort again
    descending by name (the final order of the source's two sort calls). -/
def dirlistOf (entries : List DirEntry) : List DirEntry :=
  sortBy entryLeDesc (sortBy entryLeAsc (entries.filter (fun e => endsWithM4a e.name.data)))

/-- One feed item of the podcast handler: title, enclosure url, enclosure
    length. -/
structure Item where
  title : String
  url : String
  length : Nat
deriving DecidableEq, Repr

/-- The item-building loop of the podcast handler.  Except.error models the
    uncaught ValueError of the tuple unpacking
    (_, date_enc) = entry.name[:-4].split("-") when the split does not have
    exactly two parts. -/
def mkItems (scheme netloc : String) : List DirEntry → Except String (List Item)
  | [] => Except.ok []
  | e :: rest =>
    if endsWithM4a e.name.data = false then mkItems scheme netloc rest
    else
      match splitOnChar '-' (dropLast4 e.name.data) with
      | [_, date_enc] =>
        match mkItems scheme netloc rest with
        | Except.error err => Except.error err
        | Except.ok items =>
          Except.ok (Item.mk ("ZIB 2 - " ++ String.mk (underscoreToSpace date_enc))
            (scheme ++ "://" ++ netloc ++ "/static/" ++ e.name) e.size :: items)
      | _ => Except.error "ValueError: unpack"

/-- The NEWEST_EPISODE_MAX_AGE constant of main.py. -/
def NEWEST_EPISODE_MAX_AGE : Int := 3

/-- The staleness block of the podcast handler, which runs inside
    try/except: dirlist[0] on an empty list (IndexError), a missing second
    "-" part (IndexError) and an unparseable date (ValueError) are all
    caught, producing no alarm; otherwise the alarm fires exactly when
    today minus the parsed date exceeds NEWEST_EPISODE_MAX_AGE days. -/
def staleCheck (dirlist : List DirEntry) (today : Date) : Bool :=
  match dirlist with
  | [] => false
  | e :: _ =>
    match (splitOnChar '-' (removeM4a e.name.data)).get? 1 with
    | none => false
    | some ds =>
      match parseDMY ds with
      | none => false
      | some d =>
        if (today.toDays : Int) - (d.toDays : Int) > NEWEST_EPISODE_MAX_AGE then true
        else false

/-- The podcast handler of main.py for GET /: build dirlist, build the feed
    items (an unpacking ValueError escapes as Except.error), evaluate the
    staleness alarm, and return the item list together with the alarm flag
    (the feed document itself is the fixed channel block around the items). -/
def podcast (entries : List DirEntry) (today : Date) (scheme netloc : String) :
    Except String (List Item × Bool) :=
  let dirlist := dirlistOf entries
  match mkItems scheme netloc dirlist with
  | Except.error e => Except.error e
  | Except.ok items => Except.ok (items, staleCheck dirlist today)

/-- The publish date a stored episode's well-formed filename encodes. -/
def storedDateOf (e : DirEntry) : Option Date :=
  if endsWithM4a e.name.data then
    match splitOnChar '-' (dropLast4 e.name.data) with
    | [_, ds] => parseDMY ds
    | _ => none
  else none

/-- Modelled from the spec: the newest stored episode's publish date (the
    maximal publishDate over the StoredEpisode set of the library), the
    quantity the staleness claim of the spec speaks about; used to compare
    the handler's behaviour against the spec's wording. -/
def specNewestDate (entries : List DirEntry) : Option Date :=
  (entries.filterMap storedDateOf).foldl
    (fun acc d =>
      match acc with
      | none => some d
      | some m => if m.toDays < d.toDays then some d else some m) none

/-- Initial heap: the module-level YTDL_OPTS object at address 0. -/
def heap0 : Heap := Heap.mk [YTDL_OPTS]

/-- Concrete detail page with a complete broadcast dated 01.01.2024. -/
def pageW : String := "<title>ZIB 2 vom 01.01.2024</title>"

/-- Concrete detail page with a complete broadcast dated 02.01.2024. -/
def pageB : String := "<title>ZIB 2 vom 02.01.2024</title>"

/-- Concrete detail page carrying the uncomplete-broadcast marker. -/
def pageUncomplete : String := "videos segments_complete : false here"

/-- Concrete probe for witnesses: only u1 resolves, to pageW. -/
def probeW : String → Except String String :=
  fun u => if u = "u1" then Except.ok pageW else Except.error "404"

/-- Concrete listing matches for witnesses: one candidate. -/
def matchesW : List (String × String) := [("1", "u1")]

/-- Concrete probe with a complete page on u1, the uncomplete marker on u2
    and a complete page on u3. -/
def probe2W : String → Except String String :=
  fun u =>
    if u = "u1" then Except.ok pageW
    else if u = "u2" then Except.ok pageUncomplete
    else Except.ok pageB

/-- Concrete probe that raises on u1 and resolves everything else. -/
def probeC3 : String → Except String String :=
  fun u => if u = "u1" then Except.error "boom" else Except.ok pageB

/-- Library entries whose filename order disagrees with their date order. -/
def entriesC4 : List DirEntry :=
  [DirEntry.mk "1-03.01.2024.m4a" 5, DirEntry.mk "2-01.01.2024.m4a" 6,
   DirEntry.mk "3-02.01.2024.m4a" 7]

/-- Request date for the feed-order counterexample. -/
def dateC4 : Date := Date.mk 4 1 2024

/-- The items the podcast handler produces for entriesC4. -/
def itemsC4 : List Item :=
  [Item.mk "ZIB 2 - 02.01.2024" "http://host/static/3-02.01.2024.m4a" 7,
   Item.mk "ZIB 2 - 01.01.2024" "http://host/static/2-01.01.2024.m4a" 6,
   Item.mk "ZIB 2 - 03.01.2024" "http://host/static/1-03.01.2024.m4a" 5]

/-- Library entries where the first name in descending name order does not
    carry the newest date. -/
def entriesC5 : List DirEntry :=
  [DirEntry.mk "1-03.01.2024.m4a" 1, DirEntry.mk "3-02.01.2024.m4a" 2]

/-- Request date for the staleness counterexample: three days after the
    newest stored date. -/
def dateC5 : Date := Date.mk 6 1 2024

/-- The items the podcast handler produces for entriesC5. -/
def itemsC5 : List Item :=
  [Item.mk "ZIB 2 - 02.01.2024" "http://host/static/3-02.01.2024.m4a" 2,
   Item.mk "ZIB 2 - 03.01.2024" "http://host/static/1-03.01.2024.m4a" 1]

/-- A library with a stray non-m4a file and one well-formed episode. -/
def entriesC6 : List DirEntry :=
  [DirEntry.mk "garbage.txt" 3, DirEntry.mk "7-05.01.2024.m4a" 9]

/-- A library with an .m4a file whose stem has no dash. -/
def entriesC6bad : List DirEntry := [DirEntry.mk "garbage.m4a" 0]

/- ### Helper lemmas: the lexicographic string order used by the sorts -/

theorem lexLt_nil_cons (y : Char) (ys : List Char) : lexLt [] (y :: ys) = true := by
  simp [lexLt]

theorem lexLt_nil_right (l : List Char) : lexLt l [] = false := by
  cases l <;> simp [lexLt]

theorem lexLt_true_cases (a : List Char) :
    ∀ c, lexLt a c = true → ∀ b, lexLt a b = true ∨ lexLt b c = true := by
  induction a with
  | nil =>
    intro c hc b
    cases c with
    | nil => simp [lexLt_nil_right] at hc
    | cons z zs =>
      cases b with
      | nil => right; exact lexLt_nil_cons z zs
      | cons y ys => left; exact lexLt_nil_cons y ys
  | cons x xs ih =>
    intro c hc b
    cases c with
    | nil => simp [lexLt_nil_right] at hc
    | cons z zs =>
      cases b with
      | nil => right; exact lexLt_nil_cons z zs
      | cons y ys =>
        simp only [lexLt] at hc ⊢
        by_cases hxz : x.toNat < z.toNat
        · by_cases hxy : x.toNat < y.toNat
          · left; simp [hxy]
          · right
            have hyz : y.toNat < z.toNat := by omega
            simp [hyz]
        · by_cases hzx : z.toNat < x.toNat
          · simp [hxz, hzx] at hc
          · simp only [hxz, hzx, if_false] at hc
            by_cases hxy : x.toNat < y.toNat
            · left; simp [hxy]
            · by_cases hyx : y.toNat < x.toNat
              · right
                have hyz : y.toNat < z.toNat := by omega
                simp [hyz]
              · rcases ih zs hc ys with hl | hr
                · left; simp [hxy, hyx, hl]
                · right
                  have h1 : ¬ y.toNat < z.toNat := by omega
                  have h2 : ¬ z.toNat < y.toNat := by omega
                  simp [h1, h2, hr]

theorem lexLt_false_trans (a b c : List Char)
    (h1 : lexLt a b = false) (h2 : lexLt b c = false) : lexLt a c = false := by
  by_contra hcon
  have hac : lexLt a c = true := by
    cases hx : lexLt a c
    · exact absurd hx hcon
    · rfl
  rcases lexLt_true_cases a c hac b with hl | hr
  · rw [hl] at h1; exact Bool.noConfusion h1
  · rw [hr] at h2; exact Bool.noConfusion h2

theorem lexLt_asymm (a b : List Char) (h : lexLt a b = true) : lexLt b a = false := by
  induction a generalizing b with
  | nil =>
    cases b with
    | nil => simp [lexLt_nil_right] at h
    | cons y ys => exact lexLt_nil_right (y :: ys)
  | cons x xs ih =>
    cases b with
    | nil => simp [lexLt_nil_right] at h
    | cons y ys =>
      simp only [lexLt] at h ⊢
      by_cases hxy : x.toNat < y.toNat
      · have h1 : ¬ y.toNat < x.toNat := by omega
        simp [hxy, h1]
      · by_cases hyx : y.toNat < x.toNat
        · simp [hxy, hyx] at h
        · simp only [hxy, hyx, if_false] at h
          simp [hxy, hyx, ih ys h]

/- ### Helper lemmas: insertion sort (the two Python sort calls) -/

theorem mem_insertSorted {α : Type} (le : α → α → Bool) (a x : α) (l : List α) :
    x ∈ insertSorted le a l ↔ x = a ∨ x ∈ l := by
  induction l with
  | nil => simp [insertSorted]
  | cons b bs ih =>
    simp only [insertSorted]
    by_cases h : le a b = true
    · rw [if_pos h]
      simp only [List.mem_cons]
    · rw [if_neg h]
      simp only [List.mem_cons, ih]
      tauto

theorem length_insertSorted {α : Type} (le : α → α → Bool) (a : α) (l : List α) :
    (insertSorted le a l).length = l.length + 1 := by
  induction l with
  | nil => simp [insertSorted]
  | cons b bs ih =>
    simp only [insertSorted]
    by_cases h : le a b = true
    · rw [if_pos h]
      simp
    · rw [if_neg h]
      simp [ih]

theorem mem_sortBy {α : Type} (le : α → α → Bool) (x : α) (l : List α) :
    x ∈ sortBy le l ↔ x ∈ l := by
  induction l with
  | nil => simp [sortBy]
  | cons b bs ih =>
    simp only [sortBy, List.foldr_cons] at ih ⊢
    rw [mem_insertSorted, ih, List.mem_cons]

theorem length_sortBy {α : Type} (le : α → α → Bool) (l : List α) :
    (sortBy le l).length = l.length := by
  induction l with
  | nil => simp [sortBy]
  | cons b bs ih =>
    simp only [sortBy, List.foldr_cons] at ih ⊢
    rw [length_insertSorted, ih, List.length_cons]

theorem pairwise_insertSorted {α : Type} (le : α → α → Bool)
    (htot : ∀ a b, le a b = true ∨ le b a = true)
    (htrans : ∀ a b c, le a b = true → le b c = true → le a c = true)
    (a : α) (l : List α) (h : l.Pairwise (fun x y => le x y = true)) :
    (insertSorted le a l).Pairwise (fun x y => le x y = true) := by
  induction l with
  | nil => simp [insertSorted]
  | cons b bs ih =>
    rcases List.pairwise_cons.mp h with ⟨hb, hbs⟩
    simp only [insertSorted]
    by_cases hab : le a b = true
    · rw [if_pos hab]
      refine List.Pairwise.cons ?_ h
      intro y hy
      rcases List.mem_cons.mp hy with hyb | hy2
      · rw [hyb]
        exact hab
      · exact htrans a b y hab (hb y hy2)
    · rw [if_neg hab]
      refine List.Pairwise.cons ?_ (ih hbs)
      intro y hy
      rcases (mem_insertSorted le a y bs).mp hy with hya | hy2
      · rw [hya]
        exact (htot a b).resolve_left hab
      · exact hb y hy2

theorem pairwise_sortBy {α : Type} (le : α → α → Bool)
    (htot : ∀ a b, le a b = true ∨ le b a = true)
    (htrans : ∀ a b c, le a b = true → le b c = true → le a c = true)
    (l : List α) :
    (sortBy le l).Pairwise (fun x y => le x y = true) := by
  induction l with
  | nil => simp [sortBy]
  | cons b bs ih =>
    simp only [sortBy, List.foldr_cons] at ih ⊢
    exact pairwise_insertSorted le htot htrans b _ ih

/- ### Helper lemmas: dict building (Python dict semantics) -/

theorem dictSet_keys_nodup {α : Type} (d : List (String × α)) (k : String) (v : α)
    (h : (d.map Prod.fst).Nodup) : ((dictSet d k v).map Prod.fst).Nodup := by
  unfold dictSet
  by_cases hk : k ∈ d.map Prod.fst
  · simp only [hk, if_true]
    have heq : (d.map (fun p => if p.1 = k then (k, v) else p)).map Prod.fst = d.map Prod.fst := by
      rw [List.map_map]
      apply List.map_congr_left
      intro p _
      by_cases hp : p.1 = k
      · simp [hp]
      · simp [hp]
    rw [heq]
    exact h
  · simp only [hk, if_false, List.map_append, List.map_cons, List.map_nil]
    simp only [List.nodup_append]
    refine ⟨h, List.nodup_singleton k, ?_⟩
    intro x hx
    simp only [List.mem_singleton]
    intro hxk
    exact hk (hxk ▸ hx)

theorem foldl_dictSet_keys_nodup {α : Type} (ms : List (String × α)) :
    ∀ init : List (String × α), (init.map Prod.fst).Nodup →
      ((ms.foldl (fun d m => dictSet d m.1 m.2) init).map Prod.fst).Nodup := by
  induction ms with
  | nil => intro init h; simpa using h
  | cons m rest ih =>
    intro init h
    simp only [List.foldl_cons]
    exact ih _ (dictSet_keys_nodup init m.1 m.2 h)

theorem get_episode_urls_keys_nodup (ms : List (String × String)) :
    ((get_episode_urls ms).map Prod.fst).Nodup := by
  unfold get_episode_urls
  exact foldl_dictSet_keys_nodup ms [] (by simp)

/- ### Helper lemmas: one step of the download_all loop -/

theorem runCycle_cons_view (probe : String → Except String String)
    (id url : String) (rest : List (String × String)) (fs : List String) (h : Heap) :
    (∃ e, probe url = Except.error e ∧
       runCycle probe ((id, url) :: rest) fs h = CycleResult.mk fs h [] (some e)) ∨
    (∃ text, probe url = Except.ok text ∧ searchUncomplete text.data = true ∧
       runCycle probe ((id, url) :: rest) fs h =
         CycleResult.mk (runCycle probe rest fs h).fs (runCycle probe rest fs h).heap
           (Event.skippedUncomplete id :: (runCycle probe rest fs h).events)
           (runCycle probe rest fs h).err) ∨
    (∃ text, probe url = Except.ok text ∧ searchUncomplete text.data = false ∧
       searchTitleDate text.data = none ∧
       runCycle probe ((id, url) :: rest) fs h =
         CycleResult.mk (runCycle probe rest fs h).fs (runCycle probe rest fs h).heap
           (Event.skippedNoDate id :: (runCycle probe rest fs h).events)
           (runCycle probe rest fs h).err) ∨
    (∃ text date, probe url = Except.ok text ∧ searchUncomplete text.data = false ∧
       searchTitleDate text.data = some date ∧
       staticPath (gateFilename (mkTemplate (encodeSpaces date)) id "m4a") ∈ fs ∧
       runCycle probe ((id, url) :: rest) fs h =
         CycleResult.mk (runCycle probe rest fs h).fs (runCycle probe rest fs h).heap
           (Event.skippedExisting id :: (runCycle probe rest fs h).events)
           (runCycle probe rest fs h).err) ∨
    (∃ text date, probe url = Except.ok text ∧ searchUncomplete text.data = false ∧
       searchTitleDate text.data = some date ∧
       staticPath (gateFilename (mkTemplate (encodeSpaces date)) id "m4a") ∉ fs ∧
       runCycle probe ((id, url) :: rest) fs h =
         CycleResult.mk
           (runCycle probe rest
             (acquirerWrite fs (staticPath (gateFilename (mkTemplate (encodeSpaces date)) id "m4a")))
             (heapWrite (Heap.mk (h.dicts ++ [dictCopy ((h.dicts.get? 0).getD [])]))
               h.dicts.length "outtmpl" (OptVal.str (mkTemplate (encodeSpaces date))))).fs
           (runCycle probe rest
             (acquirerWrite fs (staticPath (gateFilename (mkTemplate (encodeSpaces date)) id "m4a")))
             (heapWrite (Heap.mk (h.dicts ++ [dictCopy ((h.dicts.get? 0).getD [])]))
               h.dicts.length "outtmpl" (OptVal.str (mkTemplate (encodeSpaces date))))).heap
           (Event.downloaded id url ::
             (runCycle probe rest
               (acquirerWrite fs (staticPath (gateFilename (mkTemplate (encodeSpaces date)) id "m4a")))
               (heapWrite (Heap.mk (h.dicts ++ [dictCopy ((h.dicts.get? 0).getD [])]))
                 h.dicts.length "outtmpl" (OptVal.str (mkTemplate (encodeSpaces date))))).events)
           (runCycle probe rest
             (acquirerWrite fs (staticPath (gateFilename (mkTemplate (encodeSpaces date)) id "m4a")))
             (heapWrite (Heap.mk (h.dicts ++ [dictCopy ((h.dicts.get? 0).getD [])]))
               h.dicts.length "outtmpl" (OptVal.str (mkTemplate (encodeSpaces date))))).err) := by
  cases hpr : probe url with
  | error e =>
    left
    exact ⟨e, rfl, by simp [runCycle, hpr]⟩
  | ok text =>
    by_cases hinc : searchUncomplete text.data = true
    · right; left
      exact ⟨text, rfl, hinc, by simp [runCycle, hpr, hinc]⟩
    · cases hdt : searchTitleDate text.data with
      | none =>
        right; right; left
        exact ⟨text, rfl, by simpa using hinc, hdt, by simp [runCycle, hpr, hinc, hdt]⟩
      | some date =>
        by_cases hex : staticPath (gateFilename (mkTemplate (encodeSpaces date)) id "m4a") ∈ fs
        · right; right; right; left
          exact ⟨text, date, rfl, by simpa using hinc, hdt, hex,
            by simp [runCycle, hpr, hinc, hdt, hex]⟩
        · right; right; right; right
          exact ⟨text, date, rfl, by simpa using hinc, hdt, hex,
            by simp [runCycle, hpr, hinc, hdt, hex]⟩

theorem runCycle_fs_mono (probe : String → Except String String)
    (cands : List (String × String)) :
    ∀ (fs : List String) (h : Heap) (p : String),
      p ∈ fs → p ∈ (runCycle probe cands fs h).fs := by
  induction cands with
  | nil =>
    intro fs h p hp
    simpa [runCycle] using hp
  | cons cand rest ih =>
    intro fs h p hp
    obtain ⟨id, url⟩ := cand
    rcases runCycle_cons_view probe id url rest fs h with
      ⟨e, _, heq⟩ | ⟨text, _, _, heq⟩ | ⟨text, _, _, _, heq⟩ |
      ⟨text, date, _, _, _, _, heq⟩ | ⟨text, date, _, _, _, _, heq⟩ <;> rw [heq]
    · exact hp
    · exact ih fs h p hp
    · exact ih fs h p hp
    · exact ih fs h p hp
    · exact ih _ _ p (List.mem_append_left _ hp)

theorem runCycle_no_download_keyless (probe : String → Except String String)
    (cands : List (String × String)) :
    ∀ (fs : List String) (h : Heap) (id u2 : String),
      id ∉ cands.map Prod.fst →
      Event.downloaded id u2 ∉ (runCycle probe cands fs h).events := by
  induction cands with
  | nil =>
    intro fs h id u2 _ hmem
    simp [runCycle] at hmem
  | cons cand rest ih =>
    intro fs h id u2 hk hmem
    obtain ⟨i1, u1⟩ := cand
    have hne : id ≠ i1 := by
      intro hcontra
      exact hk (by simp [hcontra])
    have hkrest : id ∉ rest.map Prod.fst := by
      intro hcontra
      exact hk (by simp [hcontra])
    rcases runCycle_cons_view probe i1 u1 rest fs h with
      ⟨e, _, heq⟩ | ⟨text, _, _, heq⟩ | ⟨text, _, _, _, heq⟩ |
      ⟨text, date, _, _, _, _, heq⟩ | ⟨text, date, _, _, _, _, heq⟩ <;>
      rw [heq] at hmem <;> simp only [List.mem_cons] at hmem
    · exact (List.not_mem_nil _ hmem)
    · rcases hmem with hc | hm
      · exact Event.noConfusion hc
      · exact ih fs h id u2 hkrest hm
    · rcases hmem with hc | hm
      · exact Event.noConfusion hc
      · exact ih fs h id u2 hkrest hm
    · rcases hmem with hc | hm
      · exact Event.noConfusion hc
      · exact ih fs h id u2 hkrest hm
    · rcases hmem with hc | hm
      · simp only [Event.downloaded.injEq] at hc
        exact hne hc.1
      · exact ih _ _ id u2 hkrest hm

theorem runCycle_downloaded_mem (probe : String → Except String String)
    (cands : List (String × String)) :
    ∀ (fs : List String) (h : Heap) (id url : String),
      Event.downloaded id url ∈ (runCycle probe cands fs h).events →
      (id, url) ∈ cands ∧ ∃ text date,
        probe url = Except.ok text ∧ searchUncomplete text.data = false ∧
        searchTitleDate text.data = some date ∧
        staticPath (gateFilename (mkTemplate (encodeSpaces date)) id "m4a") ∈
          (runCycle probe cands fs h).fs := by
  induction cands with
  | nil =>
    intro fs h id url hmem
    simp [runCycle] at hmem
  | cons cand rest ih =>
    intro fs h id url hmem
    obtain ⟨i1, u1⟩ := cand
    rcases runCycle_cons_view probe i1 u1 rest fs h with
      ⟨e, hpr, heq⟩ | ⟨text, hpr, hinc, heq⟩ | ⟨text, hpr, hinc, hdt, heq⟩ |
      ⟨text, date, hpr, hinc, hdt, hex, heq⟩ | ⟨text, date, hpr, hinc, hdt, hex, heq⟩ <;>
      rw [heq] at hmem ⊢ <;> simp only [List.mem_cons] at hmem
    · exact absurd hmem (List.not_mem_nil _)
    · rcases hmem with hc | hm
      · exact Event.noConfusion hc
      · obtain ⟨hmem2, text2, date2, h1, h2, h3, h4⟩ := ih fs h id url hm
        exact ⟨List.mem_cons_of_mem _ hmem2, text2, date2, h1, h2, h3, h4⟩
    · rcases hmem with hc | hm
      · exact Event.noConfusion hc
      · obtain ⟨hmem2, text2, date2, h1, h2, h3, h4⟩ := ih fs h id url hm
        exact ⟨List.mem_cons_of_mem _ hmem2, text2, date2, h1, h2, h3, h4⟩
    · rcases hmem with hc | hm
      · exact Event.noConfusion hc
      · obtain ⟨hmem2, text2, date2, h1, h2, h3, h4⟩ := ih fs h id url hm
        exact ⟨List.mem_cons_of_mem _ hmem2, text2, date2, h1, h2, h3, h4⟩
    · rcases hmem with hc | hm
      · obtain ⟨hid, hurl⟩ : id = i1 ∧ url = u1 := by
          injection hc with h1 h2
          exact ⟨h1, h2⟩
        subst hid
        subst hurl
        refine ⟨List.mem_cons_self _ _, text, date, hpr, hinc, hdt, ?_⟩
        exact runCycle_fs_mono probe rest _ _ _
          (List.mem_append_right _ (by simp))
      · obtain ⟨hmem2, text2, date2, h1, h2, h3, h4⟩ := ih _ _ id url hm
        exact ⟨List.mem_cons_of_mem _ hmem2, text2, date2, h1, h2, h3, h4⟩


theorem candPath_eq_some (probe : String → Except String String) (id url p : String)
    (hcp : candPath probe id url = some p) :
    ∃ text date, probe url = Except.ok text ∧ searchUncomplete text.data = false ∧
      searchTitleDate text.data = some date ∧
      p = staticPath (gateFilename (mkTemplate (encodeSpaces date)) id "m4a") := by
  unfold candPath at hcp
  cases hpr : probe url with
  | error e =>
    rw [hpr] at hcp
    simp at hcp
  | ok text =>
    rw [hpr] at hcp
    dsimp only at hcp
    by_cases hinc : searchUncomplete text.data = true
    · rw [if_pos hinc] at hcp
      simp at hcp
    · rw [if_neg hinc] at hcp
      cases hdt : searchTitleDate text.data with
      | none =>
        rw [hdt] at hcp
        simp at hcp
      | some date =>
        rw [hdt] at hcp
        simp only [Option.some.injEq] at hcp
        exact ⟨text, date, rfl, by simpa using hinc, hdt, hcp.symm⟩

theorem runCycle_no_download_existing (probe : String → Except String String)
    (cands : List (String × String)) :
    ∀ (fs : List String) (h : Heap) (id url p u2 : String),
      (cands.map Prod.fst).Nodup →
      (id, url) ∈ cands → candPath probe id url = some p → p ∈ fs →
      Event.downloaded id u2 ∉ (runCycle probe cands fs h).events := by
  induction cands with
  | nil =>
    intro fs h id url p u2 _ hm _ _
    simp at hm
  | cons cand rest ih =>
    intro fs h id url p u2 hnd hm hcp hfs hmem
    obtain ⟨i1, u1⟩ := cand
    have hnd12 : i1 ∉ rest.map Prod.fst ∧ (rest.map Prod.fst).Nodup := by
      rw [List.map_cons, List.nodup_cons] at hnd
      exact hnd
    by_cases hid : id = i1
    · have hurl : url = u1 := by
        rcases List.mem_cons.mp hm with hc | hm2
        · exact congrArg Prod.snd hc
        · exfalso
          apply hnd12.1
          rw [← hid]
          exact List.mem_map_of_mem Prod.fst hm2
      obtain ⟨text, date, hpr, hinc, hdt, hp⟩ := candPath_eq_some probe id url p hcp
      rw [hurl] at hpr
      have hex : staticPath (gateFilename (mkTemplate (encodeSpaces date)) id "m4a") ∈ fs := by
        rw [← hp]
        exact hfs
      have heq : runCycle probe ((i1, u1) :: rest) fs h =
          CycleResult.mk (runCycle probe rest fs h).fs (runCycle probe rest fs h).heap
            (Event.skippedExisting i1 :: (runCycle probe rest fs h).events)
            (runCycle probe rest fs h).err := by
        rw [← hid]
        simp [runCycle, hpr, hinc, hdt, hex]
      rw [heq] at hmem
      rcases List.mem_cons.mp hmem with hc | hm3
      · exact Event.noConfusion hc
      · apply runCycle_no_download_keyless probe rest fs h id u2 ?_ hm3
        rw [hid]
        exact hnd12.1
    · have hm2 : (id, url) ∈ rest := by
        rcases List.mem_cons.mp hm with hc | hm2
        · exact absurd (congrArg Prod.fst hc) hid
        · exact hm2
      rcases runCycle_cons_view probe i1 u1 rest fs h with
        ⟨e, hpr, heq⟩ | ⟨text, hpr, hinc, heq⟩ | ⟨text, hpr, hinc, hdt, heq⟩ |
        ⟨text, date, hpr, hinc, hdt, hex, heq⟩ | ⟨text, date, hpr, hinc, hdt, hex, heq⟩ <;>
        rw [heq] at hmem
      · exact List.not_mem_nil _ hmem
      · rcases List.mem_cons.mp hmem with hc | hm3
        · exact Event.noConfusion hc
        · exact ih fs h id url p u2 hnd12.2 hm2 hcp hfs hm3
      · rcases List.mem_cons.mp hmem with hc | hm3
        · exact Event.noConfusion hc
        · exact ih fs h id url p u2 hnd12.2 hm2 hcp hfs hm3
      · rcases List.mem_cons.mp hmem with hc | hm3
        · exact Event.noConfusion hc
        · exact ih fs h id url p u2 hnd12.2 hm2 hcp hfs hm3
      · rcases List.mem_cons.mp hmem with hc | hm3
        · simp only [Event.downloaded.injEq] at hc
          exact hid hc.1
        · exact ih _ _ id url p u2 hnd12.2 hm2 hcp (List.mem_append_left _ hfs) hm3

theorem runCycle_append_ok (probe : String → Except String String)
    (pre : List (String × String)) :
    ∀ (bs : List (String × String)) (fs : List String) (h : Heap),
      (runCycle probe pre fs h).err = none →
      runCycle probe (pre ++ bs) fs h =
        CycleResult.mk
          (runCycle probe bs (runCycle probe pre fs h).fs (runCycle probe pre fs h).heap).fs
          (runCycle probe bs (runCycle probe pre fs h).fs (runCycle probe pre fs h).heap).heap
          ((runCycle probe pre fs h).events ++
            (runCycle probe bs (runCycle probe pre fs h).fs (runCycle probe pre fs h).heap).events)
          (runCycle probe bs (runCycle probe pre fs h).fs (runCycle probe pre fs h).heap).err := by
  induction pre with
  | nil =>
    intro bs fs h _
    simp [runCycle]
  | cons cand rest ih =>
    intro bs fs h hok
    obtain ⟨i1, u1⟩ := cand
    rcases runCycle_cons_view probe i1 u1 rest fs h with
      ⟨e, hpr, heq⟩ | ⟨text, hpr, hinc, heq⟩ | ⟨text, hpr, hinc, hdt, heq⟩ |
      ⟨text, date, hpr, hinc, hdt, hex, heq⟩ | ⟨text, date, hpr, hinc, hdt, hex, heq⟩
    · rw [heq] at hok
      exact absurd hok (by simp)
    · have hokr : (runCycle probe rest fs h).err = none := by
        rw [heq] at hok
        exact hok
      have hstep2 : runCycle probe ((i1, u1) :: (rest ++ bs)) fs h =
          CycleResult.mk (runCycle probe (rest ++ bs) fs h).fs
            (runCycle probe (rest ++ bs) fs h).heap
            (Event.skippedUncomplete i1 :: (runCycle probe (rest ++ bs) fs h).events)
            (runCycle probe (rest ++ bs) fs h).err := by
        simp [runCycle, hpr, hinc]
      rw [List.cons_append, hstep2, ih bs fs h hokr, heq]
      simp
    · have hokr : (runCycle probe rest fs h).err = none := by
        rw [heq] at hok
        exact hok
      have hstep2 : runCycle probe ((i1, u1) :: (rest ++ bs)) fs h =
          CycleResult.mk (runCycle probe (rest ++ bs) fs h).fs
            (runCycle probe (rest ++ bs) fs h).heap
            (Event.skippedNoDate i1 :: (runCycle probe (rest ++ bs) fs h).events)
            (runCycle probe (rest ++ bs) fs h).err := by
        simp [runCycle, hpr, hinc, hdt]
      rw [List.cons_append, hstep2, ih bs fs h hokr, heq]
      simp
    · have hokr : (runCycle probe rest fs h).err = none := by
        rw [heq] at hok
        exact hok
      have hstep2 : runCycle probe ((i1, u1) :: (rest ++ bs)) fs h =
          CycleResult.mk (runCycle probe (rest ++ bs) fs h).fs
            (runCycle probe (rest ++ bs) fs h).heap
            (Event.skippedExisting i1 :: (runCycle probe (rest ++ bs) fs h).events)
            (runCycle probe (rest ++ bs) fs h).err := by
        simp [runCycle, hpr, hinc, hdt, hex]
      rw [List.cons_append, hstep2, ih bs fs h hokr, heq]
      simp
    · have hokr : (runCycle probe rest
          (acquirerWrite fs (staticPath (gateFilename (mkTemplate (encodeSpaces date)) i1 "m4a")))
          (heapWrite (Heap.mk (h.dicts ++ [dictCopy ((h.dicts.get? 0).getD [])]))
            h.dicts.length "outtmpl" (OptVal.str (mkTemplate (encodeSpaces date))))).err = none := by
        rw [heq] at hok
        exact hok
      have hstep2 : runCycle probe ((i1, u1) :: (rest ++ bs)) fs h =
          CycleResult.mk
            (runCycle probe (rest ++ bs)
              (acquirerWrite fs (staticPath (gateFilename (mkTemplate (encodeSpaces date)) i1 "m4a")))
              (heapWrite (Heap.mk (h.dicts ++ [dictCopy ((h.dicts.get? 0).getD [])]))
                h.dicts.length "outtmpl" (OptVal.str (mkTemplate (encodeSpaces date))))).fs
            (runCycle probe (rest ++ bs)
              (acquirerWrite fs (staticPath (gateFilename (mkTemplate (encodeSpaces date)) i1 "m4a")))
              (heapWrite (Heap.mk (h.dicts ++ [dictCopy ((h.dicts.get? 0).getD [])]))
                h.dicts.length "outtmpl" (OptVal.str (mkTemplate (encodeSpaces date))))).heap
            (Event.downloaded i1 u1 ::
              (runCycle probe (rest ++ bs)
                (acquirerWrite fs (staticPath (gateFilename (mkTemplate (encodeSpaces date)) i1 "m4a")))
                (heapWrite (Heap.mk (h.dicts ++ [dictCopy ((h.dicts.get? 0).getD [])]))
                  h.dicts.length "outtmpl" (OptVal.str (mkTemplate (encodeSpaces date))))).events)
            (runCycle probe (rest ++ bs)
              (acquirerWrite fs (staticPath (gateFilename (mkTemplate (encodeSpaces date)) i1 "m4a")))
              (heapWrite (Heap.mk (h.dicts ++ [dictCopy ((h.dicts.get? 0).getD [])]))
                h.dicts.length "outtmpl" (OptVal.str (mkTemplate (encodeSpaces date))))).err := by
        simp [runCycle, hpr, hinc, hdt, hex]
      rw [List.cons_append, hstep2, ih bs _ _ hokr, heq]
      simp

/-- C1: for every candidate of the sync cycle (download_all), when the
    expected path app/static/(id)-(formatted date).m4a computed from the
    probed detail page already exists, the cycle never invokes the media
    acquirer for that candidate (no downloaded event); and a second cycle
    over an unchanged upstream listing, run on the library a first cycle
    produced after acquiring an episode, never re-invokes acquisition for
    that episode id. -/
theorem download_all_no_reacquire (probe : String → Except String String)
    (ms : List (String × String)) (fs : List String) (h : Heap) (id url : String) :
    (∀ p u2, (id, url) ∈ get_episode_urls ms → candPath probe id url = some p → p ∈ fs →
      Event.downloaded id u2 ∉ (download_all probe ms fs h).events) ∧
    (Event.downloaded id url ∈ (download_all probe ms fs h).events →
      ∀ u2 h2, Event.downloaded id u2 ∉
        (download_all probe ms (download_all probe ms fs h).fs h2).events) := by
  constructor
  · intro p u2 hm hcp hfs
    exact runCycle_no_download_existing probe (get_episode_urls ms) fs h id url p u2
      (get_episode_urls_keys_nodup ms) hm hcp hfs
  · intro hdl u2 h2
    obtain ⟨hm, text, date, hpr, hinc, hdt, hfs2⟩ :=
      runCycle_downloaded_mem probe (get_episode_urls ms) fs h id url hdl
    have hcp : candPath probe id url =
        some (staticPath (gateFilename (mkTemplate (encodeSpaces date)) id "m4a")) := by
      unfold candPath
      rw [hpr]
      dsimp only
      rw [if_neg (by simp [hinc]), hdt]
    exact runCycle_no_download_existing probe (get_episode_urls ms) _ h2 id url _ u2
      (get_episode_urls_keys_nodup ms) hm hcp hfs2

/-- Witness for download_all_no_reacquire: with the concrete probe and the
    single candidate episode 1, the gate skips when the file exists, and a
    second cycle on the library produced by a first cycle does not
    re-acquire. -/
theorem download_all_no_reacquire_witness :
    (Event.downloaded "1" "u1" ∉
      (download_all probeW matchesW ["app/static/1-01.01.2024.m4a"] heap0).events) ∧
    (Event.downloaded "1" "u1" ∉
      (download_all probeW matchesW (download_all probeW matchesW [] heap0).fs heap0).events) :=
  ⟨(download_all_no_reacquire probeW matchesW ["app/static/1-01.01.2024.m4a"] heap0 "1" "u1").1
      "app/static/1-01.01.2024.m4a" "u1" (by decide) (by decide) (by decide),
   (download_all_no_reacquire probeW matchesW [] heap0 "1" "u1").2 (by decide) "u1" heap0⟩

/-- C2: a candidate whose probed detail page carries the uncomplete marker
    is skipped with no download attempt and no file created for it, the loop
    continues with the remaining candidates, and nothing is recorded about
    the candidate (library and dict heap reach the rest of the cycle
    unchanged), so the candidate is re-examined on a later cycle. -/
theorem uncomplete_candidate_skipped (probe : String → Except String String)
    (pre post : List (String × String)) (fs : List String) (h : Heap)
    (id url text : String)
    (hpre : (runCycle probe pre fs h).err = none)
    (hpr : probe url = Except.ok text)
    (hinc : searchUncomplete text.data = true) :
    runCycle probe (pre ++ (id, url) :: post) fs h =
      CycleResult.mk
        (runCycle probe post (runCycle probe pre fs h).fs (runCycle probe pre fs h).heap).fs
        (runCycle probe post (runCycle probe pre fs h).fs (runCycle probe pre fs h).heap).heap
        ((runCycle probe pre fs h).events ++ Event.skippedUncomplete id ::
          (runCycle probe post (runCycle probe pre fs h).fs (runCycle probe pre fs h).heap).events)
        (runCycle probe post (runCycle probe pre fs h).fs (runCycle probe pre fs h).heap).err := by
  rw [runCycle_append_ok probe pre ((id, url) :: post) fs h hpre]
  have hstep : runCycle probe ((id, url) :: post) (runCycle probe pre fs h).fs
      (runCycle probe pre fs h).heap =
      CycleResult.mk
        (runCycle probe post (runCycle probe pre fs h).fs (runCycle probe pre fs h).heap).fs
        (runCycle probe post (runCycle probe pre fs h).fs (runCycle probe pre fs h).heap).heap
        (Event.skippedUncomplete id ::
          (runCycle probe post (runCycle probe pre fs h).fs (runCycle probe pre fs h).heap).events)
        (runCycle probe post (runCycle probe pre fs h).fs (runCycle probe pre fs h).heap).err := by
    simp [runCycle, hpr, hinc]
  rw [hstep]

/-- Witness for uncomplete_candidate_skipped: candidate 2's page carries the
    marker, candidate 1 was processed before it and candidate 3 after it. -/
theorem uncomplete_candidate_skipped_witness :
    runCycle probe2W ([("1", "u1")] ++ ("2", "u2") :: [("3", "u3")]) [] heap0 =
      CycleResult.mk
        (runCycle probe2W [("3", "u3")] (runCycle probe2W [("1", "u1")] [] heap0).fs
          (runCycle probe2W [("1", "u1")] [] heap0).heap).fs
        (runCycle probe2W [("3", "u3")] (runCycle probe2W [("1", "u1")] [] heap0).fs
          (runCycle probe2W [("1", "u1")] [] heap0).heap).heap
        ((runCycle probe2W [("1", "u1")] [] heap0).events ++ Event.skippedUncomplete "2" ::
          (runCycle probe2W [("3", "u3")] (runCycle probe2W [("1", "u1")] [] heap0).fs
            (runCycle probe2W [("1", "u1")] [] heap0).heap).events)
        (runCycle probe2W [("3", "u3")] (runCycle probe2W [("1", "u1")] [] heap0).fs
          (runCycle probe2W [("1", "u1")] [] heap0).heap).err :=
  uncomplete_candidate_skipped probe2W [("1", "u1")] [("3", "u3")] [] heap0 "2" "u2"
    pageUncomplete (by decide) rfl (by decide)

/-- C3 as stated is false on the code: the download_all loop catches no
    exception, so a transport failure while probing candidate 1 aborts the
    cycle and candidate 2 — which in isolation would have been probed,
    gated and acquired — is not processed at all. -/
theorem probe_failure_not_isolated_cex :
    (runCycle probeC3 [("1", "u1"), ("2", "u2")] [] heap0).events = [] ∧
    (runCycle probeC3 [("1", "u1"), ("2", "u2")] [] heap0).err = some "boom" ∧
    (runCycle probeC3 [("1", "u1"), ("2", "u2")] [] heap0).fs = [] ∧
    (runCycle probeC3 [("2", "u2")] [] heap0).events = [Event.downloaded "2" "u2"] := by
  refine ⟨by decide, by decide, by decide, by decide⟩

/-- C3 amended: a raised transport exception while probing one candidate
    propagates out of download_all and ends the cycle there: the candidates
    after the failing one are neither probed nor gated nor acquired that
    cycle (there is no per-candidate isolation in the code). -/
theorem probe_failure_aborts_cycle (probe : String → Except String String)
    (pre post : List (String × String)) (fs : List String) (h : Heap)
    (id url e : String)
    (hpre : (runCycle probe pre fs h).err = none)
    (hpr : probe url = Except.error e) :
    runCycle probe (pre ++ (id, url) :: post) fs h =
      CycleResult.mk (runCycle probe pre fs h).fs (runCycle probe pre fs h).heap
        (runCycle probe pre fs h).events (some e) := by
  rw [runCycle_append_ok probe pre ((id, url) :: post) fs h hpre]
  have hstep : runCycle probe ((id, url) :: post) (runCycle probe pre fs h).fs
      (runCycle probe pre fs h).heap =
      CycleResult.mk (runCycle probe pre fs h).fs (runCycle probe pre fs h).heap [] (some e) := by
    simp [runCycle, hpr]
  rw [hstep]
  simp

/-- Witness for probe_failure_aborts_cycle: candidate 2 is processed first
    and succeeds, then the probe of candidate 1 raises and candidate 3 is
    never reached. -/
theorem probe_failure_aborts_cycle_witness :
    runCycle probeC3 ([("2", "u2")] ++ ("1", "u1") :: [("3", "u3")]) [] heap0 =
      CycleResult.mk (runCycle probeC3 [("2", "u2")] [] heap0).fs
        (runCycle probeC3 [("2", "u2")] [] heap0).heap
        (runCycle probeC3 [("2", "u2")] [] heap0).events (some "boom") :=
  probe_failure_aborts_cycle probeC3 [("2", "u2")] [("3", "u3")] [] heap0 "1" "u1" "boom"
    (by decide) rfl

/-- C8: the candidate mapping get_episode_urls builds from the listing-page
    matches is deduplicated by id: every id occurs at most once among its
    keys, no matter how often it occurred in the page. -/
theorem get_episode_urls_dedup (ms : List (String × String)) :
    ((get_episode_urls ms).map Prod.fst).Nodup ∧
    ∀ k, ((get_episode_urls ms).map Prod.fst).count k ≤ 1 := by
  refine ⟨get_episode_urls_keys_nodup ms, ?_⟩
  intro k
  exact List.nodup_iff_count_le_one.mp (get_episode_urls_keys_nodup ms) k

/- ### Helper lemmas: percent formatting and the filename convention -/

theorem string_data_append (a b : String) : (a ++ b).data = a.data ++ b.data := rfl

theorem pctFormat_step_nonpct (id ext : String) (c : Char) (cs : List Char) (hc : c ≠ '%') :
    pctFormat id ext (c :: cs) = c :: pctFormat id ext cs := by
  rw [pctFormat.eq_def]
  dsimp only
  rw [if_neg hc]

theorem pctFormat_on_id (id ext : String) (rest : List Char) :
    pctFormat id ext ('%' :: '(' :: 'i' :: 'd' :: ')' :: 's' :: rest) =
      id.data ++ pctFormat id ext rest := rfl

theorem pctFormat_on_ext (id ext : String) (rest : List Char) :
    pctFormat id ext ('%' :: '(' :: 'e' :: 'x' :: 't' :: ')' :: 's' :: rest) =
      ext.data ++ pctFormat id ext rest := rfl

theorem pctFormat_passthrough (id ext : String) (l : List Char) (hl : ∀ c ∈ l, c ≠ '%') :
    ∀ rest, pctFormat id ext (l ++ rest) = l ++ pctFormat id ext rest := by
  induction l with
  | nil => intro rest; simp
  | cons c cs ih =>
    intro rest
    have hc : c ≠ '%' := hl c (List.mem_cons_self c cs)
    rw [List.cons_append, pctFormat_step_nonpct id ext c (cs ++ rest) hc,
      ih (fun x hx => hl x (List.mem_cons_of_mem c hx)) rest, List.cons_append]

theorem takeWhile_sat {α : Type} (p : α → Bool) (l : List α) :
    ∀ a ∈ l.takeWhile p, p a = true := by
  induction l with
  | nil => intro a ha; simp at ha
  | cons b bs ih =>
    intro a ha
    rw [List.takeWhile] at ha
    cases hp : p b with
    | false => rw [hp] at ha; simp at ha
    | true =>
      rw [hp] at ha
      rcases List.mem_cons.mp ha with hab | ha2
      · rw [hab]; exact hp
      · exact ih a ha2

theorem searchTitleDate_chars (l : List Char) :
    ∀ s, searchTitleDate l = some s → ∀ c ∈ s.data, isDateChar c = true := by
  induction l with
  | nil =>
    intro s hs
    simp [searchTitleDate] at hs
  | cons c0 cs ih =>
    intro s hs c hc
    unfold searchTitleDate at hs
    cases hdr : dropStart ("<title>ZIB 2 vom ".data) (c0 :: cs) with
    | some r =>
      rw [hdr] at hs
      dsimp only at hs
      cases htw : r.takeWhile isDateChar with
      | nil =>
        rw [htw] at hs
        exact ih s hs c hc
      | cons d ds =>
        rw [htw] at hs
        dsimp only at hs
        have hsd : s = String.mk (d :: ds) := (Option.some.inj hs).symm
        rw [hsd] at hc
        have hmem : c ∈ r.takeWhile isDateChar := by
          rw [htw]
          exact hc
        exact takeWhile_sat isDateChar r c hmem
    | none =>
      rw [hdr] at hs
      exact ih s hs c hc

theorem map_id_of_eq {α : Type} (f : α → α) (l : List α) (h : ∀ a ∈ l, f a = a) :
    l.map f = l := by
  induction l with
  | nil => rfl
  | cons b bs ih =>
    rw [List.map_cons, h b (List.mem_cons_self b bs),
      ih (fun a ha => h a (List.mem_cons_of_mem b ha))]

theorem isDateChar_ne_pct (c : Char) (h : isDateChar c = true) : c ≠ '%' := by
  intro he
  rw [he] at h
  exact absurd h (by decide)

theorem isDateChar_ne_space (c : Char) (h : isDateChar c = true) : c ≠ ' ' := by
  intro he
  rw [he] at h
  exact absurd h (by decide)

theorem encodeSpaces_datechars (s : String) (hs : ∀ c ∈ s.data, isDateChar c = true) :
    (encodeSpaces s).data = s.data := by
  show (String.mk (spaceToUnderscore s.data)).data = s.data
  unfold spaceToUnderscore
  show s.data.map (fun c => if c = ' ' then '_' else c) = s.data
  apply map_id_of_eq
  intro a ha
  rw [if_neg (isDateChar_ne_space a (hs a ha))]

theorem gateFilename_template (id enc : String)
    (henc : ∀ c ∈ enc.data, isDateChar c = true) :
    gateFilename (mkTemplate enc) id "m4a" = id ++ "-" ++ enc ++ ".m4a" := by
  have hne : ∀ c ∈ enc.data, c ≠ '%' := fun c hc => isDateChar_ne_pct c (henc c hc)
  have hlist : pctFormat id "m4a" ((mkTemplate enc).data)
      = id.data ++ '-' :: (enc.data ++ '.' :: 'm' :: '4' :: 'a' :: []) := by
    have h0 : (mkTemplate enc).data
        = '%' :: '(' :: 'i' :: 'd' :: ')' :: 's' :: '-' ::
            (enc.data ++ '.' :: '%' :: '(' :: 'e' :: 'x' :: 't' :: ')' :: 's' :: []) := rfl
    rw [h0, pctFormat_on_id,
      pctFormat_step_nonpct id "m4a" '-' _ (by decide),
      pctFormat_passthrough id "m4a" enc.data hne,
      pctFormat_step_nonpct id "m4a" '.' _ (by decide),
      pctFormat_on_ext]
    rfl
  have hmk : gateFilename (mkTemplate enc) id "m4a"
      = String.mk (id.data ++ '-' :: (enc.data ++ '.' :: 'm' :: '4' :: 'a' :: [])) := by
    unfold gateFilename
    rw [hlist]
  rw [hmk]
  have hr : (id ++ "-" ++ enc ++ ".m4a").data
      = id.data ++ '-' :: (enc.data ++ '.' :: 'm' :: '4' :: 'a' :: []) := by
    show ((id.data ++ '-' :: []) ++ enc.data) ++ ('.' :: 'm' :: '4' :: 'a' :: []) = _
    rw [List.append_assoc, List.append_assoc]
    rfl
  rw [← hr]

/-- C9: whenever the sync cycle acquires an episode, the output filename
    given by the template handed to the media acquirer, instantiated with the
    id and the m4a extension, is exactly (id)-(date).m4a where (date) is the
    title date with spaces replaced by underscores; the acquisition gate
    checks this very string as a path under app/static, and the stored file
    carries that path, so dedup key and stored-file name coincide. -/
theorem downloaded_filename_convention (probe : String → Except String String)
    (cands : List (String × String)) (fs : List String) (h : Heap) (id url : String)
    (hdl : Event.downloaded id url ∈ (runCycle probe cands fs h).events) :
    ∃ text date, probe url = Except.ok text ∧
      searchTitleDate text.data = some date ∧
      gateFilename (mkTemplate (encodeSpaces date)) id "m4a"
        = id ++ "-" ++ encodeSpaces date ++ ".m4a" ∧
      candPath probe id url
        = some (staticPath (id ++ "-" ++ encodeSpaces date ++ ".m4a")) ∧
      staticPath (id ++ "-" ++ encodeSpaces date ++ ".m4a") ∈ (runCycle probe cands fs h).fs := by
  obtain ⟨hm, text, date, hpr, hinc, hdt, hfs⟩ :=
    runCycle_downloaded_mem probe cands fs h id url hdl
  have hd := searchTitleDate_chars text.data date hdt
  have hchars : ∀ c ∈ (encodeSpaces date).data, isDateChar c = true := by
    intro c hc
    rw [encodeSpaces_datechars date hd] at hc
    exact hd c hc
  have hgate := gateFilename_template id (encodeSpaces date) hchars
  refine ⟨text, date, hpr, hdt, hgate, ?_, ?_⟩
  · unfold candPath
    rw [hpr]
    dsimp only
    rw [if_neg (by simp [hinc]), hdt]
    dsimp only
    rw [hgate]
  · rw [← hgate]
    exact hfs

/-- Witness for downloaded_filename_convention: the concrete single-candidate
    cycle acquires episode 1 dated 01.01.2024. -/
theorem downloaded_filename_convention_witness :
    ∃ text date, probeW "u1" = Except.ok text ∧
      searchTitleDate text.data = some date ∧
      gateFilename (mkTemplate (encodeSpaces date)) "1" "m4a"
        = "1" ++ "-" ++ encodeSpaces date ++ ".m4a" ∧
      candPath probeW "1" "u1"
        = some (staticPath ("1" ++ "-" ++ encodeSpaces date ++ ".m4a")) ∧
      staticPath ("1" ++ "-" ++ encodeSpaces date ++ ".m4a")
        ∈ (runCycle probeW [("1", "u1")] [] heap0).fs :=
  downloaded_filename_convention probeW [("1", "u1")] [] heap0 "1" "u1" (by decide)

/- ### Helper lemmas: the dict heap of download_all -/

theorem set_get0 {α : Type} (l : List α) (i : Nat) (a : α) (hi : i ≠ 0) :
    (l.set i a).get? 0 = l.get? 0 := by
  cases l with
  | nil => simp
  | cons b bs =>
    cases i with
    | zero => exact absurd rfl hi
    | succ j => simp [List.set]

theorem append_get0 {α : Type} (l1 l2 : List α) (hne : l1 ≠ []) :
    (l1 ++ l2).get? 0 = l1.get? 0 := by
  cases l1 with
  | nil => exact absurd rfl hne
  | cons b bs => simp

theorem set_ne_nil {α : Type} (l : List α) (i : Nat) (a : α) (hne : l ≠ []) :
    l.set i a ≠ [] := by
  intro hc
  apply hne
  have hlen := congrArg List.length hc
  rw [List.length_set] at hlen
  exact List.eq_nil_of_length_eq_zero hlen

theorem runCycle_heap_inv (probe : String → Except String String)
    (cands : List (String × String)) :
    ∀ (fs : List String) (h : Heap), h.dicts ≠ [] →
      (runCycle probe cands fs h).heap.dicts.get? 0 = h.dicts.get? 0 ∧
      (runCycle probe cands fs h).heap.dicts ≠ [] := by
  induction cands with
  | nil =>
    intro fs h hne
    exact ⟨by simp [runCycle], by simpa [runCycle] using hne⟩
  | cons cand rest ih =>
    intro fs h hne
    obtain ⟨i1, u1⟩ := cand
    rcases runCycle_cons_view probe i1 u1 rest fs h with
      ⟨e, _, heq⟩ | ⟨text, _, _, heq⟩ | ⟨text, _, _, _, heq⟩ |
      ⟨text, date, _, _, _, _, heq⟩ | ⟨text, date, _, _, _, _, heq⟩ <;> rw [heq]
    · exact ⟨rfl, hne⟩
    · exact ih fs h hne
    · exact ih fs h hne
    · exact ih fs h hne
    · have hlen : h.dicts.length ≠ 0 := by
        intro h0
        exact hne (List.eq_nil_of_length_eq_zero h0)
      have happ : h.dicts ++ [dictCopy ((h.dicts.get? 0).getD [])] ≠ [] := by
        cases hd : h.dicts with
        | nil => exact absurd hd hne
        | cons b bs => simp
      have h2ne : (heapWrite (Heap.mk (h.dicts ++ [dictCopy ((h.dicts.get? 0).getD [])]))
          h.dicts.length "outtmpl" (OptVal.str (mkTemplate (encodeSpaces date)))).dicts ≠ [] := by
        unfold heapWrite
        exact set_ne_nil _ _ _ happ
      have h2get : (heapWrite (Heap.mk (h.dicts ++ [dictCopy ((h.dicts.get? 0).getD [])]))
          h.dicts.length "outtmpl" (OptVal.str (mkTemplate (encodeSpaces date)))).dicts.get? 0
          = h.dicts.get? 0 := by
        unfold heapWrite
        dsimp only
        rw [set_get0 _ _ _ hlen, append_get0 _ _ hne]
      obtain ⟨ihg, ihne⟩ := ih (acquirerWrite fs
        (staticPath (gateFilename (mkTemplate (encodeSpaces date)) i1 "m4a"))) _ h2ne
      exact ⟨by rw [ihg, h2get], ihne⟩

/-- C10: running download_all (any number of scheduled cycles) never mutates
    the module-level YTDL_OPTS dict: the outtmpl override is written to a
    copy only, so the dict object at heap address 0 is still exactly
    YTDL_OPTS, whose outtmpl entry is still the string %(id)s.%(ext)s and
    whose other entries are unchanged. -/
theorem ytdl_opts_unchanged (probe : String → Except String String)
    (cycles : List (List (String × String))) :
    ∀ (fs : List String) (h : Heap), h.dicts.get? 0 = some YTDL_OPTS →
      (syncLoop probe cycles fs h).2.dicts.get? 0 = some YTDL_OPTS ∧
      dictGet YTDL_OPTS "outtmpl" = some (OptVal.str "%(id)s.%(ext)s") := by
  induction cycles with
  | nil =>
    intro fs h h0
    exact ⟨by simpa [syncLoop] using h0, rfl⟩
  | cons ms more ih =>
    intro fs h h0
    have hne : h.dicts ≠ [] := by
      intro hc
      rw [hc] at h0
      exact Option.noConfusion h0
    obtain ⟨hg, _⟩ := runCycle_heap_inv probe (get_episode_urls ms) fs h hne
    have h0' : (download_all probe ms fs h).heap.dicts.get? 0 = some YTDL_OPTS := by
      unfold download_all
      rw [hg, h0]
    show (syncLoop probe (ms :: more) fs h).2.dicts.get? 0 = some YTDL_OPTS ∧ _
    simp only [syncLoop]
    exact ih (download_all probe ms fs h).fs (download_all probe ms fs h).heap h0'

/-- Witness for ytdl_opts_unchanged: two scheduled cycles over the concrete
    single-candidate listing (the first of which downloads the episode)
    leave the YTDL_OPTS object unchanged. -/
theorem ytdl_opts_unchanged_witness :
    (syncLoop probeW [[("1", "u1")], [("1", "u1")]] [] heap0).2.dicts.get? 0 = some YTDL_OPTS ∧
    dictGet YTDL_OPTS "outtmpl" = some (OptVal.str "%(id)s.%(ext)s") :=
  ytdl_opts_unchanged probeW [[("1", "u1")], [("1", "u1")]] [] heap0 rfl

/- ### Helper lemmas: dirlist ordering and feed items -/

theorem entryLeDesc_total (a b : DirEntry) :
    entryLeDesc a b = true ∨ entryLeDesc b a = true := by
  unfold entryLeDesc strLt
  cases hab : lexLt a.name.data b.name.data with
  | false =>
    left
    rfl
  | true =>
    right
    rw [lexLt_asymm _ _ hab]
    rfl

theorem entryLeDesc_trans (a b c : DirEntry) (h1 : entryLeDesc a b = true)
    (h2 : entryLeDesc b c = true) : entryLeDesc a c = true := by
  unfold entryLeDesc strLt at h1 h2 ⊢
  have h1f : lexLt a.name.data b.name.data = false := by
    cases hx : lexLt a.name.data b.name.data
    · rfl
    · rw [hx] at h1
      exact Bool.noConfusion h1
  have h2f : lexLt b.name.data c.name.data = false := by
    cases hx : lexLt b.name.data c.name.data
    · rfl
    · rw [hx] at h2
      exact Bool.noConfusion h2
  rw [lexLt_false_trans _ _ _ h1f h2f]
  rfl

theorem dirlistOf_pairwise (entries : List DirEntry) :
    (dirlistOf entries).Pairwise (fun a b => strLt a.name b.name = false) := by
  have hp := pairwise_sortBy entryLeDesc entryLeDesc_total entryLeDesc_trans
    (sortBy entryLeAsc (entries.filter (fun e => endsWithM4a e.name.data)))
  refine hp.imp ?_
  intro a b hab
  unfold entryLeDesc strLt at hab
  cases hx : lexLt a.name.data b.name.data
  · exact hx
  · rw [hx] at hab
    exact Bool.noConfusion hab

theorem mem_dirlistOf (entries : List DirEntry) (e : DirEntry) :
    e ∈ dirlistOf entries ↔ e ∈ entries.filter (fun x => endsWithM4a x.name.data) := by
  unfold dirlistOf
  rw [mem_sortBy, mem_sortBy]

theorem dirlistOf_endsWith (entries : List DirEntry) (e : DirEntry)
    (he : e ∈ dirlistOf entries) : endsWithM4a e.name.data = true :=
  (List.mem_filter.mp ((mem_dirlistOf entries e).mp he)).2

theorem dirlistOf_length (entries : List DirEntry) :
    (dirlistOf entries).length
      = (entries.filter (fun x => endsWithM4a x.name.data)).length := by
  unfold dirlistOf
  rw [length_sortBy, length_sortBy]

theorem mkItems_ok_align (scheme netloc : String) (dl : List DirEntry) :
    ∀ items : List Item,
      (∀ e ∈ dl, endsWithM4a e.name.data = true) →
      mkItems scheme netloc dl = Except.ok items →
      items.map Item.url = dl.map (fun e => scheme ++ "://" ++ netloc ++ "/static/" ++ e.name) ∧
      items.length = dl.length := by
  induction dl with
  | nil =>
    intro items _ hok
    unfold mkItems at hok
    have hi : [] = items := Except.ok.inj hok
    rw [← hi]
    exact ⟨rfl, rfl⟩
  | cons e rest ih =>
    intro items hall hok
    have hee : endsWithM4a e.name.data = true := hall e (List.mem_cons_self e rest)
    unfold mkItems at hok
    rw [if_neg (by simp [hee])] at hok
    cases hsp : splitOnChar '-' (dropLast4 e.name.data) with
    | nil =>
      rw [hsp] at hok
      exact Except.noConfusion hok
    | cons p1 ps =>
      cases ps with
      | nil =>
        rw [hsp] at hok
        exact Except.noConfusion hok
      | cons p2 ps2 =>
        cases ps2 with
        | nil =>
          rw [hsp] at hok
          dsimp only at hok
          cases hmk : mkItems scheme netloc rest with
          | error err =>
            rw [hmk] at hok
            exact Except.noConfusion hok
          | ok items2 =>
            rw [hmk] at hok
            dsimp only at hok
            have hi := Except.ok.inj hok
            obtain ⟨hurl, hlen⟩ := ih items2
              (fun x hx => hall x (List.mem_cons_of_mem e hx)) hmk
            rw [← hi]
            constructor
            · rw [List.map_cons, List.map_cons, hurl]
            · rw [List.length_cons, List.length_cons, hlen]
        | cons p3 ps3 =>
          rw [hsp] at hok
          exact Except.noConfusion hok

theorem mkItems_ok_exists (scheme netloc : String) (dl : List DirEntry)
    (hw : ∀ e ∈ dl, endsWithM4a e.name.data = true →
        (splitOnChar '-' (dropLast4 e.name.data)).length = 2) :
    ∃ items, mkItems scheme netloc dl = Except.ok items := by
  induction dl with
  | nil => exact ⟨[], rfl⟩
  | cons e rest ih =>
    obtain ⟨items2, hmk⟩ := ih (fun x hx => hw x (List.mem_cons_of_mem e hx))
    by_cases hee : endsWithM4a e.name.data = true
    · have hsp := hw e (List.mem_cons_self e rest) hee
      obtain ⟨p1, p2, hsp2⟩ : ∃ a b, splitOnChar '-' (dropLast4 e.name.data) = [a, b] := by
        cases hs : splitOnChar '-' (dropLast4 e.name.data) with
        | nil =>
          rw [hs] at hsp
          simp at hsp
        | cons a t =>
          cases t with
          | nil =>
            rw [hs] at hsp
            simp at hsp
          | cons b t2 =>
            cases t2 with
            | nil => exact ⟨a, b, rfl⟩
            | cons c t3 =>
              rw [hs] at hsp
              simp at hsp
      refine ⟨Item.mk ("ZIB 2 - " ++ String.mk (underscoreToSpace p2))
          (scheme ++ "://" ++ netloc ++ "/static/" ++ e.name) e.size :: items2, ?_⟩
      unfold mkItems
      rw [if_neg (by simp [hee]), hsp2]
      dsimp only
      rw [hmk]
    · have hef : endsWithM4a e.name.data = false := by
        cases hx : endsWithM4a e.name.data
        · rfl
        · exact absurd hx hee
      refine ⟨items2, ?_⟩
      unfold mkItems
      rw [if_pos hef]
      exact hmk

theorem podcast_ok_inv (entries : List DirEntry) (today : Date) (scheme netloc : String)
    (items : List Item) (alarm : Bool)
    (hok : podcast entries today scheme netloc = Except.ok (items, alarm)) :
    mkItems scheme netloc (dirlistOf entries) = Except.ok items ∧
    alarm = staleCheck (dirlistOf entries) today := by
  unfold podcast at hok
  dsimp only at hok
  cases hmk : mkItems scheme netloc (dirlistOf entries) with
  | error e =>
    rw [hmk] at hok
    exact Except.noConfusion hok
  | ok its =>
    rw [hmk] at hok
    dsimp only at hok
    have hpair := Except.ok.inj hok
    have h1 : its = items := congrArg Prod.fst hpair
    have h2 : staleCheck (dirlistOf entries) today = alarm := congrArg Prod.snd hpair
    exact ⟨congrArg Except.ok h1, h2.symm⟩

/-- C4 as stated is false on the code: the feed is ordered by descending
    full filename (reverse-sorted by name), not by the publish date encoded
    in the name — with ids 1, 2, 3 carrying dates 03.01, 01.01, 02.01, the
    feed lists 02.01, 01.01, 03.01 instead of 03, 02, 01. -/
theorem feed_order_cex :
    podcast entriesC4 dateC4 "http" "host" = Except.ok (itemsC4, false) ∧
    itemsC4.map Item.title ≠
      ["ZIB 2 - 03.01.2024", "ZIB 2 - 02.01.2024", "ZIB 2 - 01.01.2024"] :=
  ⟨rfl, by decide⟩

/-- C4 amended: the feed produced by GET / lists its items in descending
    lexicographic order of the full stored filename (id before date), which
    coincides with descending publish-date order only when filename order
    and date order agree: the dirlist is pairwise descending by name and
    the item list is exactly those entries in that order. -/
theorem feed_order_by_filename (entries : List DirEntry) (today : Date)
    (scheme netloc : String) (items : List Item) (alarm : Bool)
    (hok : podcast entries today scheme netloc = Except.ok (items, alarm)) :
    (dirlistOf entries).Pairwise (fun a b => strLt a.name b.name = false) ∧
    items.map Item.url =
      (dirlistOf entries).map (fun e => scheme ++ "://" ++ netloc ++ "/static/" ++ e.name) := by
  obtain ⟨hmk, _⟩ := podcast_ok_inv entries today scheme netloc items alarm hok
  exact ⟨dirlistOf_pairwise entries,
    (mkItems_ok_align scheme netloc (dirlistOf entries) items
      (fun e he => dirlistOf_endsWith entries e he) hmk).1⟩

/-- Witness for feed_order_by_filename at the concrete three-entry library. -/
theorem feed_order_by_filename_witness :
    (dirlistOf entriesC4).Pairwise (fun a b => strLt a.name b.name = false) ∧
    itemsC4.map Item.url =
      (dirlistOf entriesC4).map (fun e => "http" ++ "://" ++ "host" ++ "/static/" ++ e.name) :=
  feed_order_by_filename entriesC4 dateC4 "http" "host" itemsC4 false rfl

/-- C5 as stated is false on the code: the staleness check parses the date
    of dirlist[0], the first name in descending filename order, which need
    not carry the newest publish date — here the newest stored episode is
    dated 03.01.2024, exactly 3 days before today (so the claim says no
    alarm), yet the alarm fires because dirlist[0] is the id-3 file dated
    02.01.2024, four days old. -/
theorem stale_alarm_cex :
    specNewestDate entriesC5 = some (Date.mk 3 1 2024) ∧
    ¬ ((dateC5.toDays : Int) - ((Date.mk 3 1 2024).toDays : Int) > NEWEST_EPISODE_MAX_AGE) ∧
    podcast entriesC5 dateC5 "http" "host" = Except.ok (itemsC5, true) :=
  ⟨rfl, by decide, rfl⟩

/-- C5 amended: on a successful feed read the staleness alarm fires iff the
    date parsed from the first filename in descending name order (not
    necessarily the newest stored publish date) is strictly more than
    NEWEST_EPISODE_MAX_AGE days before today; if the library is empty or
    that first name does not parse, the exception is caught and no alarm is
    raised; and the item list does not depend on today, so the feed is
    served unchanged whether or not the alarm fires. -/
theorem stale_alarm_iff (entries : List DirEntry) (today : Date)
    (scheme netloc : String) (items : List Item) (alarm : Bool)
    (hok : podcast entries today scheme netloc = Except.ok (items, alarm)) :
    (alarm = true ↔ ∃ e tl ds d, dirlistOf entries = e :: tl ∧
      (splitOnChar '-' (removeM4a e.name.data)).get? 1 = some ds ∧
      parseDMY ds = some d ∧
      (today.toDays : Int) - (d.toDays : Int) > NEWEST_EPISODE_MAX_AGE) ∧
    ∀ today2, podcast entries today2 scheme netloc =
      Except.ok (items, staleCheck (dirlistOf entries) today2) := by
  obtain ⟨hmk, halarm⟩ := podcast_ok_inv entries today scheme netloc items alarm hok
  constructor
  · rw [halarm]
    cases hd : dirlistOf entries with
    | nil =>
      constructor
      · intro hc
        rw [staleCheck] at hc
        exact Bool.noConfusion hc
      · rintro ⟨e, tl, ds, d, hcons, _, _, _⟩
        exact List.noConfusion hcons
    | cons e tl =>
      unfold staleCheck
      dsimp only
      cases hget : (splitOnChar '-' (removeM4a e.name.data)).get? 1 with
      | none =>
        dsimp only
        constructor
        · intro hc
          exact Bool.noConfusion hc
        · rintro ⟨e2, tl2, ds, d, hcons, hg, _, _⟩
          have he2 : e2 = e := (List.cons.inj hcons).1.symm
          rw [he2, hget] at hg
          exact Option.noConfusion hg
      | some ds0 =>
        dsimp only
        cases hpd : parseDMY ds0 with
        | none =>
          dsimp only
          constructor
          · intro hc
            exact Bool.noConfusion hc
          · rintro ⟨e2, tl2, ds, d, hcons, hg, hp, _⟩
            have he2 : e2 = e := (List.cons.inj hcons).1.symm
            rw [he2, hget] at hg
            have hds : ds = ds0 := (Option.some.inj hg).symm
            rw [hds, hpd] at hp
            exact Option.noConfusion hp
        | some d0 =>
          dsimp only
          by_cases hcmp : (today.toDays : Int) - (d0.toDays : Int) > NEWEST_EPISODE_MAX_AGE
          · rw [if_pos hcmp]
            constructor
            · intro _
              exact ⟨e, tl, ds0, d0, rfl, hget, hpd, hcmp⟩
            · intro _
              rfl
          · rw [if_neg hcmp]
            constructor
            · intro hc
              exact Bool.noConfusion hc
            · rintro ⟨e2, tl2, ds, d, hcons, hg, hp, hgt⟩
              have he2 : e2 = e := (List.cons.inj hcons).1.symm
              rw [he2, hget] at hg
              have hds : ds = ds0 := (Option.some.inj hg).symm
              rw [hds, hpd] at hp
              have hdd : d = d0 := (Option.some.inj hp).symm
              rw [hdd] at hgt
              exact absurd hgt hcmp
  · intro today2
    unfold podcast
    dsimp only
    rw [hmk]

/-- Witness for stale_alarm_iff at the concrete two-entry library whose
    dirlist head is the id-3 file. -/
theorem stale_alarm_iff_witness :
    ((true = true) ↔ ∃ e tl ds d, dirlistOf entriesC5 = e :: tl ∧
      (splitOnChar '-' (removeM4a e.name.data)).get? 1 = some ds ∧
      parseDMY ds = some d ∧
      (dateC5.toDays : Int) - (d.toDays : Int) > NEWEST_EPISODE_MAX_AGE) ∧
    ∀ today2, podcast entriesC5 today2 "http" "host" =
      Except.ok (itemsC5, staleCheck (dirlistOf entriesC5) today2) :=
  stale_alarm_iff entriesC5 dateC5 "http" "host" itemsC5 true rfl

/-- C6 as stated is false on the code: a .m4a file whose stem does not
    split into exactly two dash-separated parts makes the tuple unpacking
    raise ValueError, so feed construction fails on the library containing
    only garbage.m4a (even though non-.m4a strays are indeed harmless). -/
theorem malformed_m4a_cex :
    podcast entriesC6bad (Date.mk 1 1 2024) "http" "host" =
      Except.error "ValueError: unpack" := rfl

/-- C6 amended: every directory entry whose name does not end in .m4a (such
    as garbage.txt) is excluded from the feed and never makes construction
    fail; the defensiveness stops there: when every .m4a entry's stem splits
    into exactly two dash-separated parts, the feed is built with exactly one
    item per .m4a entry (a .m4a entry without that structure raises,
    see the counterexample). -/
theorem feed_skips_non_m4a (entries : List DirEntry) (today : Date)
    (scheme netloc : String)
    (hw : ∀ e ∈ entries, endsWithM4a e.name.data = true →
        (splitOnChar '-' (dropLast4 e.name.data)).length = 2) :
    (∃ items alarm, podcast entries today scheme netloc = Except.ok (items, alarm) ∧
      items.length = (entries.filter (fun e => endsWithM4a e.name.data)).length) ∧
    ∀ e ∈ entries, endsWithM4a e.name.data = false → e ∉ dirlistOf entries := by
  constructor
  · have hw2 : ∀ e ∈ dirlistOf entries, endsWithM4a e.name.data = true →
        (splitOnChar '-' (dropLast4 e.name.data)).length = 2 := by
      intro e he
      exact hw e (List.mem_filter.mp ((mem_dirlistOf entries e).mp he)).1
    obtain ⟨items, hmk⟩ := mkItems_ok_exists scheme netloc (dirlistOf entries) hw2
    refine ⟨items, staleCheck (dirlistOf entries) today, ?_, ?_⟩
    · unfold podcast
      dsimp only
      rw [hmk]
    · have halign := (mkItems_ok_align scheme netloc (dirlistOf entries) items
        (fun e he => dirlistOf_endsWith entries e he) hmk).2
      rw [halign, dirlistOf_length]
  · intro e _ hfalse hmem
    have hcontra := dirlistOf_endsWith entries e hmem
    rw [hfalse] at hcontra
    exact Bool.noConfusion hcontra

/-- Witness for feed_skips_non_m4a: a library with garbage.txt and one
    well-formed episode yields a one-item feed and garbage.txt is excluded. -/
theorem feed_skips_non_m4a_witness :
    (∃ items alarm, podcast entriesC6 (Date.mk 6 1 2024) "http" "host" =
        Except.ok (items, alarm) ∧
      items.length = (entriesC6.filter (fun e => endsWithM4a e.name.data)).length) ∧
    ∀ e ∈ entriesC6, endsWithM4a e.name.data = false → e ∉ dirlistOf entriesC6 :=
  feed_skips_non_m4a entriesC6 (Date.mk 6 1 2024) "http" "host" (by decide)

/-- C7: on an empty library GET / returns the feed with zero items and does
    not crash: the empty-sequence access dirlist[0] raises inside the
    try/except of the staleness block, so the staleness comparison is never
    evaluated and no alarm is raised, and the (empty) feed is returned. -/
theorem podcast_empty_library (today : Date) (scheme netloc : String) :
    podcast [] today scheme netloc = Except.ok ([], false) := rfl
